import Mathlib

/-!
Verification of the Ax modelbridge utilities (`ax/modelbridge/modelbridge_utils.py`)
and the UnitX normalization transform (`ax/modelbridge/transforms/unit_x.py`).

Python floats are embedded as exact rationals (`ℚ`); Python dicts keyed by
parameter/metric name are embedded as association lists `List (String × α)`
in insertion order (Python dicts preserve insertion order and have unique
keys); a Python exception is embedded as `none` in an `Option` result.
-/

namespace Ax

/-- Lookup in an insertion-ordered dict embedded as an association list:
`d[k]` returns the value of the first entry with the given key. -/
def lookup {α : Type} : List (String × α) → String → Option α
  | [], _ => none
  | p :: rest, n => if p.1 = n then some p.2 else lookup rest n

/-- Assignment `d[k] = v` for a key already present in the dict: every entry
carrying the key is rewritten to the new value (a Python dict holds at most
one such entry). -/
def updateKey {α : Type} (l : List (String × α)) (k : String) (v : α) :
    List (String × α) :=
  l.map (fun p => if p.1 = k then (p.1, v) else p)

/-- Parameter types, from `ax.core.parameter.ParameterType`. -/
inductive ParameterType where
  | FLOAT
  | INT
  | STRING
  | BOOL
deriving DecidableEq, Repr

/-- Data of an `ax.core.parameter.RangeParameter`: type, bounds, log-scale
flag and the optional target (fidelity) value. -/
structure RangeParameterData where
  parameter_type : ParameterType
  lower : ℚ
  upper : ℚ
  log_scale : Bool
  target_value : Option ℚ
deriving DecidableEq, Repr

/-- A parameter is either a `RangeParameter` or a non-range parameter
(choice/fixed), of which only the optional target value is relevant here. -/
inductive Parameter where
  | range (d : RangeParameterData)
  | choice (target_value : Option ℚ)
deriving DecidableEq, Repr

/-- Accessor `p.target_value`. -/
def Parameter.target_value : Parameter → Option ℚ
  | .range d => d.target_value
  | .choice tv => tv

/-- Setter for `p._target_value = v`. -/
def Parameter.set_target_value : Parameter → ℚ → Parameter
  | .range d, v => .range { d with target_value := some v }
  | .choice _, v => .choice (some v)

/-- An `ax.core.parameter_constraint.ParameterConstraint`: the mapping
`constraint_dict` from parameter name to coefficient and the scalar `bound`,
meaning `sum(coef * value) <= bound`. -/
structure ParameterConstraint where
  constraint_dict : List (String × ℚ)
  bound : ℚ
deriving DecidableEq, Repr

/-- An `ax.core.search_space.SearchSpace`: its parameter dict (insertion
order) and its parameter constraints. -/
structure SearchSpace where
  parameters : List (String × Parameter)
  parameter_constraints : List ParameterConstraint
deriving DecidableEq, Repr

/-- An `ax.core.observation.ObservationFeatures`: the parameter dict of one
design point. -/
structure ObservationFeatures where
  parameters : List (String × ℚ)
deriving DecidableEq, Repr

/-- An `ax.core.observation.ObservationData`: metric names, means and the
covariance matrix. -/
structure ObservationData where
  metric_names : List String
  means : List ℚ
  covariance : List (List ℚ)
deriving DecidableEq, Repr

/-- Function `normalize_value` of `unit_x.py`: transform bounds to [0,1] and
apply the same transform to the value (out-of-bounds values map outside
[0,1], no clamping). -/
def normalize_value (value : ℚ) (bounds : ℚ × ℚ) : ℚ :=
  (value - bounds.1) / (bounds.2 - bounds.1)

namespace UnitX

/-- Body of `UnitX.__init__`: collect `self.bounds`, the name-to-bounds dict
of the parameters to transform — `RangeParameter`s of type FLOAT that are
not log scale. -/
def unitx_bounds (search_space : SearchSpace) : List (String × (ℚ × ℚ)) :=
  search_space.parameters.filterMap (fun np =>
    match np.2 with
    | .range d =>
        if d.parameter_type = ParameterType.FLOAT && !d.log_scale then
          some (np.1, (d.lower, d.upper))
        else
          none
    | .choice _ => none)

/-- One step of the inner loop of `UnitX.transform_observation_features`:
if the parameter is present in the feature's dict, replace its value by
`normalize_value(value, (l, u))`; otherwise skip it. -/
def transform_step (f : ObservationFeatures) (entry : String × (ℚ × ℚ)) :
    ObservationFeatures :=
  match lookup f.parameters entry.1 with
  | some v => ⟨updateKey f.parameters entry.1 (normalize_value v entry.2)⟩
  | none => f

/-- Loop of `UnitX.transform_observation_features` over `self.bounds` for a
single observation feature. -/
def transform_feature (bounds : List (String × (ℚ × ℚ)))
    (f : ObservationFeatures) : ObservationFeatures :=
  bounds.foldl transform_step f

/-- Method `UnitX.transform_observation_features`. -/
def transform_observation_features (bounds : List (String × (ℚ × ℚ)))
    (fs : List ObservationFeatures) : List ObservationFeatures :=
  fs.map (transform_feature bounds)

/-- One step of the inner loop of `UnitX.untransform_observation_features`:
`obsf.parameters[p_name]` is looked up unconditionally (a missing key is a
`KeyError`, embedded as `none`), then replaced by `param * (u - l) + l`. -/
def untransform_step (f : ObservationFeatures) (entry : String × (ℚ × ℚ)) :
    Option ObservationFeatures :=
  match lookup f.parameters entry.1 with
  | some v =>
      some ⟨updateKey f.parameters entry.1 (v * (entry.2.2 - entry.2.1) + entry.2.1)⟩
  | none => none

/-- Loop of `UnitX.untransform_observation_features` over `self.bounds` for
a single observation feature. -/
def untransform_feature (bounds : List (String × (ℚ × ℚ)))
    (f : ObservationFeatures) : Option ObservationFeatures :=
  bounds.foldlM untransform_step f

/-- Method `UnitX.untransform_observation_features`. -/
def untransform_observation_features (bounds : List (String × (ℚ × ℚ)))
    (fs : List ObservationFeatures) : Option (List ObservationFeatures) :=
  fs.mapM (untransform_feature bounds)

/-- Parameter loop body of `UnitX.transform_search_space`: first
`update_range` when the name is in `self.bounds` and the parameter is a
`RangeParameter`; then, whenever `p.target_value is not None`, remap it with
`normalize_value(p.target_value, self.bounds[p_name])` — the lookup
`self.bounds[p_name]` raises `KeyError` (`none`) when the parameter is not
in `self.bounds`. -/
def transform_parameter (bounds : List (String × (ℚ × ℚ))) (n : String)
    (p : Parameter) : Option Parameter :=
  let p1 : Parameter :=
    match p, lookup bounds n with
    | .range d, some lu =>
        .range { d with
          lower := normalize_value d.lower lu,
          upper := normalize_value d.upper lu }
    | _, _ => p
  match p1.target_value with
  | none => some p1
  | some tv =>
      match lookup bounds n with
      | some lu => some (p1.set_target_value (normalize_value tv lu))
      | none => none

/-- Constraint loop of `UnitX.transform_search_space`: each coefficient of a
parameter in `self.bounds` becomes `w * (u - l)`, other coefficients pass
through unchanged; the loop over the constraint dict items is written out as
one map per produced component. -/
def transform_constraint_dict (bounds : List (String × (ℚ × ℚ)))
    (d : List (String × ℚ)) : List (String × ℚ) :=
  d.map (fun e =>
    match lookup bounds e.1 with
    | some lu => (e.1, e.2 * (lu.2 - lu.1))
    | none => e)

/-- Bound accumulation of the same loop: `bound -= w * l` for every entry
whose parameter is in `self.bounds`. -/
def transform_constraint_bound (bounds : List (String × (ℚ × ℚ)))
    (d : List (String × ℚ)) (b : ℚ) : ℚ :=
  b - (d.map (fun e =>
    match lookup bounds e.1 with
    | some lu => e.2 * lu.1
    | none => 0)).sum

/-- One constraint of `UnitX.transform_search_space`. -/
def transform_constraint (bounds : List (String × (ℚ × ℚ)))
    (c : ParameterConstraint) : ParameterConstraint :=
  ⟨transform_constraint_dict bounds c.constraint_dict,
   transform_constraint_bound bounds c.constraint_dict c.bound⟩

/-- Method `UnitX.transform_search_space`: remap every parameter (a raised
`KeyError` propagates, giving `none` overall), then replace the parameter
constraints by their transformed versions. -/
def transform_search_space (bounds : List (String × (ℚ × ℚ)))
    (search_space : SearchSpace) : Option SearchSpace := do
  let ps ← search_space.parameters.mapM (fun np => do
    let p2 ← transform_parameter bounds np.1 np.2
    pure (np.1, p2))
  pure ⟨ps, search_space.parameter_constraints.map (transform_constraint bounds)⟩

end UnitX

/-- Value of a linear parameter constraint at a point: `sum(w_i * x_i)` over
the entries of its constraint dict. -/
def constraintValue : List (String × ℚ) → (String → ℚ) → ℚ
  | [], _ => 0
  | e :: rest, x => e.2 * x e.1 + constraintValue rest x

/-- The coordinate substitution performed by UnitX on a point: coordinates
in `self.bounds` are replaced by `normalize_value`, others are unchanged
(the pointwise meaning of `transform_observation_features`). -/
def normalizePoint (bounds : List (String × (ℚ × ℚ))) (x : String → ℚ) :
    String → ℚ :=
  fun n =>
    match lookup bounds n with
    | some lu => normalize_value (x n) lu
    | none => x n

/-- Python `list.index`: position of the first occurrence of an element, a
raised `ValueError` for a missing element being embedded as `none`. -/
def listIndex (l : List String) (m : String) : Option Nat :=
  match l with
  | [] => none
  | a :: rest => if a = m then some 0 else (listIndex rest m).map (· + 1)

/-- Objective specification, the three subclasses of `ax.core.objective`
used by `extract_objective_weights`: a plain `Objective` (single metric), a
`ScalarizedObjective` (metric/weight pairs), or a `MultiObjective`
(metric/optional-weight pairs).  Each carries its `minimize` flag. -/
inductive Objective where
  | single (metric : String) (minimize : Bool)
  | scalarized (metric_weights : List (String × ℚ)) (minimize : Bool)
  | multi (metric_weights : List (String × Option ℚ)) (minimize : Bool)
deriving DecidableEq, Repr

/-- Accessor `objective.minimize`. -/
def Objective.minimize : Objective → Bool
  | .single _ m => m
  | .scalarized _ m => m
  | .multi _ m => m

/-- Python truthiness fallback `w or s` for an optional float `w`: `None`
and `0.0` are falsy and yield `s`; any other float yields itself. -/
def pyOr (w : Option ℚ) (s : ℚ) : ℚ :=
  match w with
  | none => s
  | some x => if x = 0 then s else x

/-- Function `extract_objective_weights` of `modelbridge_utils.py`: a zero
vector of length `len(outcomes)` with, per objective metric, the entry at
`outcomes.index(name)` assigned — `obj_weight * s` for a
`ScalarizedObjective`, `obj_weight or s` for a `MultiObjective`, and `s`
for a single-metric objective, where `s = -1.0 if minimize else 1.0`.  A
metric missing from `outcomes` raises (`none`). -/
def extract_objective_weights (objective : Objective)
    (outcomes : List String) : Option (List ℚ) :=
  let s : ℚ := if objective.minimize then -1 else 1
  let w0 : List ℚ := List.replicate outcomes.length 0
  match objective with
  | .scalarized mws _ =>
      mws.foldlM (fun w e =>
        (listIndex outcomes e.1).map (fun i => w.set i (e.2 * s))) w0
  | .multi mws _ =>
      mws.foldlM (fun w e =>
        (listIndex outcomes e.1).map (fun i => w.set i (pyOr e.2 s))) w0
  | .single m _ =>
      (listIndex outcomes m).map (fun i => w0.set i s)

/-- Function `extract_objective_thresholds` of `modelbridge_utils.py`: build
the dict `{ot.metric.name: ot.bound}` (later entries of the list win, as in
a Python dict comprehension) and emit `d[name]` for each outcome name
present in the dict, in outcome order — the list comprehension
`[d[name] for name in outcomes if name in d]` is one `filterMap`. -/
def extract_objective_thresholds
    (objective_thresholds : List (String × ℚ)) (outcomes : List String) :
    List ℚ :=
  outcomes.filterMap (fun name => lookup objective_thresholds.reverse name)

/-- Comparison operator of an outcome constraint
(`ax.core.outcome_constraint.ComparisonOp`). -/
inductive ComparisonOp where
  | GEQ
  | LEQ
deriving DecidableEq, Repr

/-- An `ax.core.outcome_constraint.OutcomeConstraint`: metric name,
comparison operator and bound. -/
structure OutcomeConstraint where
  metric : String
  op : ComparisonOp
  bound : ℚ
deriving DecidableEq, Repr

/-- Row `i` of the matrices built by `extract_outcome_constraints`: with
`s = 1 if c.op == ComparisonOp.LEQ else -1` and `j = outcomes.index(...)`,
the `A`-row is all zeros except `A[i, j] = s`, and `b[i, 0] = s * c.bound`.
A metric missing from `outcomes` raises (`none`). -/
def outcome_constraint_row (outcomes : List String) (c : OutcomeConstraint) :
    Option (List ℚ × ℚ) :=
  let s : ℚ := if c.op = ComparisonOp.LEQ then 1 else -1
  (listIndex outcomes c.metric).map
    (fun j => ((List.replicate outcomes.length (0 : ℚ)).set j s, s * c.bound))

/-- Function `extract_outcome_constraints` of `modelbridge_utils.py`: for a
non-empty constraint list, the matrix `A` and vector `b` assembled row by
row (inner `none` is the Python `None` returned for an empty constraint
list; outer `none` is a raised exception). -/
def extract_outcome_constraints (outcome_constraints : List OutcomeConstraint)
    (outcomes : List String) : Option (Option (List (List ℚ) × List ℚ)) :=
  if outcome_constraints.length > 0 then
    match outcome_constraints.mapM (outcome_constraint_row outcomes) with
    | some rows => some (some (rows.map Prod.fst, rows.map Prod.snd))
    | none => none
  else
    some none

/-- Loop body of `pending_observations_as_array`, one dict entry at a time:
a pending metric present in `outcome_names` gets, at
`outcome_names.index(metric)`, the matrix
`[[po.parameters[p] for p in param_names] for po in po_list]` (a `KeyError`
on a missing parameter propagates as `none`); pending metrics absent from
`outcome_names` are skipped by the `continue`. -/
def pending_step (outcome_names param_names : List String)
    (arr : List (List (List ℚ))) (mp : String × List ObservationFeatures) :
    Option (List (List (List ℚ))) :=
  if mp.1 ∈ outcome_names then do
    let mat ← mp.2.mapM (fun po =>
      param_names.mapM (fun p => lookup po.parameters p))
    let i ← listIndex outcome_names mp.1
    pure (arr.set i mat)
  else
    pure arr

/-- Function `pending_observations_as_array` of `modelbridge_utils.py`: an
empty pending dict yields Python `None` (inner `none`); otherwise the list
initialized with one empty array per outcome name is threaded through
`pending_step` over the dict's entries in insertion order. -/
def pending_observations_as_array
    (pending_observations : List (String × List ObservationFeatures))
    (outcome_names : List String) (param_names : List String) :
    Option (Option (List (List (List ℚ)))) :=
  if pending_observations.length = 0 then
    some none
  else do
    let res ← pending_observations.foldlM
      (pending_step outcome_names param_names)
      (outcome_names.map (fun _ => ([] : List (List ℚ))))
    pure (some res)

/-- An `ax.core.optimization_config.MultiObjectiveOptimizationConfig`, the
parts read by the hypervolume pipeline. -/
structure MultiObjectiveOptimizationConfig where
  objective : Objective
  outcome_constraints : List OutcomeConstraint
  objective_thresholds : List (String × ℚ)
deriving DecidableEq, Repr

/-- Function `hypervolume` of `modelbridge_utils.py`, with the
`pareto_frontier` call abstracted into its result `frontier_result` and the
external botorch weighted-objective/`Hypervolume.compute` pair abstracted
as `hv_compute` (that routine is not part of this repository).  The code
first checks `if not observation_data: return 0`; only afterwards does it
clone the optimization config (`none` config: the attribute access on
Python `None` raises), apply a threshold override, extract weights (a
missing metric raises) and thresholds, and hand the means to the external
hypervolume computation. -/
def hypervolume (frontier_result : List ObservationData)
    (optimization_config : Option MultiObjectiveOptimizationConfig)
    (objective_thresholds : Option (List (String × ℚ)))
    (outcomes : List String)
    (hv_compute : List ℚ → List ℚ → List (List ℚ) → ℚ) : Option ℚ :=
  if frontier_result.isEmpty then
    some 0
  else do
    let cfg ← optimization_config
    let cfg :=
      match objective_thresholds with
      | some ts => { cfg with objective_thresholds := ts }
      | none => cfg
    let obj_w ← extract_objective_weights cfg.objective outcomes
    let obj_t := extract_objective_thresholds cfg.objective_thresholds outcomes
    pure (hv_compute obj_w obj_t (frontier_result.map (fun od => od.means)))

/-- Function `predicted_pareto_frontier` of `modelbridge_utils.py`, with the
`pareto_frontier` orchestration (which calls the external frontier
evaluator) abstracted as `pf`: default the observation features to the
model's training-data features, raise (`none`) when the resulting list is
empty, and otherwise delegate. -/
def predicted_pareto_frontier
    (pf : List ObservationFeatures → List ObservationData)
    (observation_features : Option (List ObservationFeatures))
    (training_features : List ObservationFeatures) :
    Option (List ObservationData) :=
  let obsf := observation_features.getD training_features
  if obsf.isEmpty then none else some (pf obsf)

/-- Function `observed_pareto_frontier` of `modelbridge_utils.py`, with
`pareto_frontier` abstracted as `pf`: collect the training observation
data and delegate directly — the code performs no emptiness check. -/
def observed_pareto_frontier
    (pf : List ObservationData → List ObservationData)
    (training_data : List ObservationData) : Option (List ObservationData) :=
  some (pf training_data)

/-- Function `predicted_hypervolume` of `modelbridge_utils.py`, with the
downstream `hypervolume` call abstracted as `hv`: same feature defaulting
and emptiness check as `predicted_pareto_frontier`. -/
def predicted_hypervolume (hv : List ObservationFeatures → ℚ)
    (observation_features : Option (List ObservationFeatures))
    (training_features : List ObservationFeatures) : Option ℚ :=
  let obsf := observation_features.getD training_features
  if obsf.isEmpty then none else some (hv obsf)

/-- Function `observed_hypervolume` of `modelbridge_utils.py`, with the
downstream `hypervolume` call abstracted as `hv`: collect the training
observation data and delegate directly — the code performs no emptiness
check. -/
def observed_hypervolume (hv : List ObservationData → ℚ)
    (training_data : List ObservationData) : Option ℚ :=
  some (hv training_data)

/-- Metric names referenced by an objective, in declaration order. -/
def Objective.metrics : Objective → List String
  | .single m _ => [m]
  | .scalarized mws _ => mws.map Prod.fst
  | .multi mws _ => mws.map Prod.fst

/-- First entry of a metric-weight list declared for a given metric name. -/
def findEntry {β : Type} : List (String × β) → String → Option (String × β)
  | [], _ => none
  | e :: rest, m0 => if e.1 = m0 then some e else findEntry rest m0

/-- Specification-side weight of one outcome under an objective, per the
amended weight-convention claim: with `s = -1` if minimize else `1`, a
single-metric objective gives `s` to its metric; a scalarized objective
gives `w * s` to a metric declared with weight `w`; a multi-objective gives
a metric its own declared weight when that weight is present and nonzero,
and falls back to `s` otherwise; outcomes not referenced get `0`. -/
def amendedWeight (o : Objective) (m0 : String) : ℚ :=
  let s : ℚ := if o.minimize then -1 else 1
  match o with
  | .single m _ => if m0 = m then s else 0
  | .scalarized mws _ =>
      match findEntry mws m0 with
      | some e => e.2 * s
      | none => 0
  | .multi mws _ =>
      match findEntry mws m0 with
      | some e => pyOr e.2 s
      | none => 0

/-- Example search space of the spec's end-to-end scenario: one float
parameter bounded [2,10], one integer parameter bounded [0,5], and the
linear constraint `1*float + 1*int <= 12`. -/
def exampleSearchSpace : SearchSpace :=
  ⟨[("float", .range ⟨.FLOAT, 2, 10, false, none⟩),
    ("int", .range ⟨.INT, 0, 5, false, none⟩)],
   [⟨[("float", 1), ("int", 1)], 12⟩]⟩

/-- A search space whose only parameter is ineligible for UnitX (an integer
range parameter) and carries a declared target value. -/
def exampleFidelitySearchSpace : SearchSpace :=
  ⟨[("x", .range ⟨.INT, 0, 5, false, some 3⟩)], []⟩

/-! ## Association-list lemmas -/

theorem lookup_cons {α : Type} (k : String) (v : α) (l : List (String × α))
    (n : String) :
    lookup ((k, v) :: l) n = if k = n then some v else lookup l n := rfl

theorem updateKey_cons {α : Type} (k0 : String) (w : α)
    (l : List (String × α)) (k : String) (v : α) :
    updateKey ((k0, w) :: l) k v
      = (if k0 = k then (k0, v) else (k0, w)) :: updateKey l k v := rfl

theorem lookup_isSome_iff {α : Type} (l : List (String × α)) (n : String) :
    (lookup l n).isSome ↔ n ∈ l.map Prod.fst := by
  induction l with
  | nil => simp [lookup]
  | cons a l ih =>
    obtain ⟨k, v⟩ := a
    rw [lookup_cons]
    by_cases h : k = n
    · subst h; simp
    · have h2 : ¬ n = k := fun hn => h hn.symm
      simp [h, h2, ih]

theorem lookup_eq_none_iff {α : Type} (l : List (String × α)) (n : String) :
    lookup l n = none ↔ n ∉ l.map Prod.fst := by
  rw [← lookup_isSome_iff]
  cases lookup l n <;> simp

theorem lookup_mem {α : Type} {l : List (String × α)} {n : String} {v : α}
    (h : lookup l n = some v) : (n, v) ∈ l := by
  induction l with
  | nil => simp [lookup] at h
  | cons a l ih =>
    obtain ⟨k, w⟩ := a
    rw [lookup_cons] at h
    split at h
    · next hk =>
        injection h with h2
        subst hk; subst h2
        exact List.mem_cons_self _ _
    · next hk =>
        exact List.mem_cons_of_mem _ (ih h)

theorem keys_updateKey {α : Type} (k : String) (v : α) :
    ∀ l : List (String × α),
      (updateKey l k v).map Prod.fst = l.map Prod.fst
  | [] => rfl
  | (k0, w) :: l => by
    rw [updateKey_cons, List.map_cons, List.map_cons, keys_updateKey k v l]
    split <;> rfl

theorem lookup_updateKey_ne {α : Type} {k n : String} (v : α) (h : n ≠ k) :
    ∀ l : List (String × α),
      lookup (updateKey l k v) n = lookup l n
  | [] => rfl
  | (k0, w) :: l => by
    rw [updateKey_cons]
    by_cases hk : k0 = k
    · subst hk
      rw [if_pos rfl, lookup_cons, lookup_cons,
        if_neg (fun h2 => h (h2.symm)), if_neg (fun h2 => h (h2.symm))]
      exact lookup_updateKey_ne v h l
    · rw [if_neg hk, lookup_cons, lookup_cons]
      by_cases h0 : k0 = n
      · rw [if_pos h0, if_pos h0]
      · rw [if_neg h0, if_neg h0]
        exact lookup_updateKey_ne v h l

theorem lookup_updateKey_self {α : Type} {k : String} (v : α) :
    ∀ l : List (String × α), (lookup l k).isSome →
      lookup (updateKey l k v) k = some v
  | [] => by simp [lookup]
  | (k0, w) :: l => by
    intro h
    rw [updateKey_cons]
    by_cases hk : k0 = k
    · subst hk
      rw [if_pos rfl, lookup_cons, if_pos rfl]
    · rw [lookup_cons, if_neg hk] at h
      rw [if_neg hk, lookup_cons, if_neg hk]
      exact lookup_updateKey_self v l h

/-! ## UnitX observation-feature lemmas -/

namespace UnitX

theorem keys_transform_step (f : ObservationFeatures)
    (e : String × (ℚ × ℚ)) :
    (transform_step f e).parameters.map Prod.fst
      = f.parameters.map Prod.fst := by
  unfold transform_step
  cases h : lookup f.parameters e.1 <;> simp [keys_updateKey]

theorem keys_transform_feature (bounds : List (String × (ℚ × ℚ))) :
    ∀ f : ObservationFeatures,
      (transform_feature bounds f).parameters.map Prod.fst
        = f.parameters.map Prod.fst := by
  induction bounds with
  | nil => intro f; rfl
  | cons e rest ih =>
    intro f
    rw [show transform_feature (e :: rest) f
        = transform_feature rest (transform_step f e) from rfl]
    rw [ih (transform_step f e), keys_transform_step]

/-- Pointwise meaning of the `transform_observation_features` loop: a value
whose parameter is in `self.bounds` is normalized (when present at all),
any other value is untouched. -/
theorem lookup_transform_feature (bounds : List (String × (ℚ × ℚ)))
    (hnd : (bounds.map Prod.fst).Nodup) (f : ObservationFeatures)
    (n : String) :
    lookup (transform_feature bounds f).parameters n
      = match lookup bounds n with
        | some lu => (lookup f.parameters n).map
            (fun v => normalize_value v lu)
        | none => lookup f.parameters n := by
  induction bounds generalizing f with
  | nil => rfl
  | cons e rest ih =>
    obtain ⟨k, lu0⟩ := e
    rw [List.map_cons, List.nodup_cons] at hnd
    obtain ⟨hk, hndr⟩ := hnd
    rw [show transform_feature ((k, lu0) :: rest) f
        = transform_feature rest (transform_step f (k, lu0)) from rfl]
    rw [ih hndr, lookup_cons]
    by_cases hn : k = n
    · subst hn
      rw [if_pos rfl]
      have hrest : lookup rest k = none := (lookup_eq_none_iff _ _).mpr hk
      rw [hrest]
      unfold transform_step
      cases hv : lookup f.parameters k with
      | none => simp [hv]
      | some v =>
          rw [lookup_updateKey_self _ _ (by rw [hv]; rfl)]
          rfl
    · rw [if_neg hn]
      have hstep : lookup (transform_step f (k, lu0)).parameters n
          = lookup f.parameters n := by
        unfold transform_step
        cases hv : lookup f.parameters k with
        | none => rfl
        | some v =>
            exact lookup_updateKey_ne _ (fun h2 => hn h2.symm) _
      rw [hstep]

/-- The `untransform_observation_features` loop raises a `KeyError` as soon
as a parameter of `self.bounds` is absent from the feature's dict. -/
theorem untransform_feature_none (bounds : List (String × (ℚ × ℚ)))
    (n : String) (lu : ℚ × ℚ) :
    ∀ f : ObservationFeatures, (n, lu) ∈ bounds →
      lookup f.parameters n = none →
      untransform_feature bounds f = none := by
  induction bounds with
  | nil => intro f hmem _; simp at hmem
  | cons e rest ih =>
    intro f hmem hmiss
    rw [show untransform_feature (e :: rest) f
        = (untransform_step f e).bind (untransform_feature rest) from rfl]
    rcases List.mem_cons.mp hmem with he | he
    · subst he
      unfold untransform_step
      rw [hmiss]
      rfl
    · cases hstep : untransform_step f e with
      | none => rfl
      | some f1 =>
          show untransform_feature rest f1 = none
          apply ih f1 he
          unfold untransform_step at hstep
          cases hv : lookup f.parameters e.1 with
          | none => rw [hv] at hstep; exact absurd hstep (by simp)
          | some v =>
              rw [hv] at hstep
              injection hstep with hstep
              subst hstep
              by_cases hEq : n = e.1
              · subst hEq; rw [hv] at hmiss; exact absurd hmiss (by simp)
              · show lookup (updateKey f.parameters e.1 _) n = none
                rw [lookup_updateKey_ne _ hEq]
                exact hmiss

/-- Success and pointwise meaning of the `untransform_observation_features`
loop when every parameter of `self.bounds` is present: each such value is
mapped by `v * (u - l) + l`, every other value is untouched, and the key
set is unchanged. -/
theorem untransform_feature_spec (bounds : List (String × (ℚ × ℚ)))
    (hnd : (bounds.map Prod.fst).Nodup) :
    ∀ f : ObservationFeatures,
      (∀ p ∈ bounds, (lookup f.parameters p.1).isSome) →
      ∃ f2, untransform_feature bounds f = some f2 ∧
        f2.parameters.map Prod.fst = f.parameters.map Prod.fst ∧
        ∀ n, lookup f2.parameters n
          = match lookup bounds n with
            | some lu => (lookup f.parameters n).map
                (fun v => v * (lu.2 - lu.1) + lu.1)
            | none => lookup f.parameters n := by
  induction bounds with
  | nil =>
    intro f _
    exact ⟨f, rfl, rfl, fun n => rfl⟩
  | cons e rest ih =>
    intro f hall
    obtain ⟨k, lu0⟩ := e
    rw [List.map_cons, List.nodup_cons] at hnd
    obtain ⟨hk, hndr⟩ := hnd
    have hsome : (lookup f.parameters k).isSome :=
      hall (k, lu0) (List.mem_cons_self _ _)
    obtain ⟨v, hv⟩ := Option.isSome_iff_exists.mp hsome
    have hstep : untransform_step f (k, lu0)
        = some ⟨updateKey f.parameters k (v * (lu0.2 - lu0.1) + lu0.1)⟩ := by
      unfold untransform_step
      rw [hv]
    set f1 : ObservationFeatures :=
      ⟨updateKey f.parameters k (v * (lu0.2 - lu0.1) + lu0.1)⟩ with hf1
    have hkeys1 : f1.parameters.map Prod.fst = f.parameters.map Prod.fst := by
      rw [hf1]; exact keys_updateKey _ _ _
    have hall1 : ∀ p ∈ rest, (lookup f1.parameters p.1).isSome := by
      intro p hp
      rw [lookup_isSome_iff, hkeys1, ← lookup_isSome_iff]
      exact hall p (List.mem_cons_of_mem _ hp)
    obtain ⟨f2, hu, hkeys2, hpt⟩ := ih hndr f1 hall1
    refine ⟨f2, ?_, hkeys2.trans hkeys1, ?_⟩
    · rw [show untransform_feature ((k, lu0) :: rest) f
          = (untransform_step f (k, lu0)).bind (untransform_feature rest)
          from rfl]
      rw [hstep]
      exact hu
    · intro n
      rw [hpt n, lookup_cons]
      by_cases hn : k = n
      · subst hn
        rw [if_pos rfl]
        have hrest : lookup rest k = none := (lookup_eq_none_iff _ _).mpr hk
        rw [hrest, hv]
        rw [hf1]
        show lookup (updateKey f.parameters k _) k = _
        rw [lookup_updateKey_self _ _ hsome]
        rfl
      · rw [if_neg hn]
        have : lookup f1.parameters n = lookup f.parameters n := by
          rw [hf1]
          exact lookup_updateKey_ne _ (fun h2 => hn h2.symm) _
        rw [this]

end UnitX

/-! ## Constraint-transform lemma -/

/-- Value of a UnitX-transformed constraint dict at the normalized point:
it equals the original value minus exactly the amount subtracted from the
bound. -/
theorem transform_constraint_value (bounds : List (String × (ℚ × ℚ)))
    (x : String → ℚ)
    (hne : ∀ n l u, lookup bounds n = some (l, u) → l ≠ u) :
    ∀ d : List (String × ℚ),
      constraintValue (UnitX.transform_constraint_dict bounds d)
          (normalizePoint bounds x)
        = constraintValue d x
          - (d.map (fun e =>
              match lookup bounds e.1 with
              | some lu => e.2 * lu.1
              | none => 0)).sum := by
  intro d
  induction d with
  | nil => simp [UnitX.transform_constraint_dict, constraintValue]
  | cons e rest ih =>
    obtain ⟨n0, w⟩ := e
    rw [show UnitX.transform_constraint_dict bounds ((n0, w) :: rest)
        = (match lookup bounds n0 with
           | some lu => (n0, w * (lu.2 - lu.1))
           | none => (n0, w)) :: UnitX.transform_constraint_dict bounds rest
        from rfl]
    rw [List.map_cons, List.sum_cons]
    cases h : lookup bounds n0 with
    | none =>
        have hx : normalizePoint bounds x n0 = x n0 := by
          simp [normalizePoint, h]
        show w * normalizePoint bounds x n0 + _ = w * x n0 + _ - _
        rw [hx, ih]
        ring
    | some lu =>
        obtain ⟨l, u⟩ := lu
        have hlu : l ≠ u := hne n0 l u h
        have hul : u - l ≠ 0 := sub_ne_zero.mpr (fun hh => hlu hh.symm)
        have hx : normalizePoint bounds x n0 = (x n0 - l) / (u - l) := by
          simp [normalizePoint, h, normalize_value]
        show w * ((l, u).2 - (l, u).1) * normalizePoint bounds x n0 + _
          = w * x n0 + _ - _
        rw [hx, ih]
        field_simp
        ring

/-! ## listIndex lemmas -/

theorem listIndex_getElem? :
    ∀ (l : List String) (m : String) (i : Nat),
      listIndex l m = some i → l[i]? = some m := by
  intro l
  induction l with
  | nil => intro m i h; simp [listIndex] at h
  | cons a rest ih =>
    intro m i h
    unfold listIndex at h
    split at h
    · next ha =>
        injection h with h
        subst h
        simp [ha]
    · next ha =>
        cases hr : listIndex rest m with
        | none => rw [hr] at h; simp at h
        | some i0 =>
            rw [hr] at h
            rw [show (some i0).map (· + 1) = some (i0 + 1) from rfl] at h
            injection h with h
            subst h
            rw [List.getElem?_cons_succ]
            exact ih m i0 hr

theorem listIndex_lt {l : List String} {m : String} {i : Nat}
    (h : listIndex l m = some i) : i < l.length := by
  have := listIndex_getElem? l m i h
  exact (List.getElem?_eq_some.mp this).1

theorem mem_listIndex {l : List String} {m : String} (h : m ∈ l) :
    ∃ i, listIndex l m = some i := by
  induction l with
  | nil => simp at h
  | cons a rest ih =>
    by_cases ha : a = m
    · exact ⟨0, by simp [listIndex, ha]⟩
    · have hr : m ∈ rest := by
        rcases List.mem_cons.mp h with h1 | h1
        · exact absurd h1.symm ha
        · exact h1
      obtain ⟨i0, hi0⟩ := ih hr
      exact ⟨i0 + 1, by simp [listIndex, ha, hi0]⟩

theorem listIndex_unique {l : List String} {m : String} {i j : Nat}
    (hnd : l.Nodup) (hi : listIndex l m = some i) (hj : l[j]? = some m) :
    i = j := by
  have h1 := listIndex_getElem? l m i hi
  exact List.getElem?_inj (listIndex_lt hi) hnd (h1.trans hj.symm)

/-! ## findEntry and fold-assignment lemmas -/

theorem findEntry_cons {β : Type} (e : String × β) (rest : List (String × β))
    (m0 : String) :
    findEntry (e :: rest) m0
      = if e.1 = m0 then some e else findEntry rest m0 := rfl

theorem findEntry_eq_none {β : Type} {entries : List (String × β)}
    {m0 : String} (h : m0 ∉ entries.map Prod.fst) :
    findEntry entries m0 = none := by
  induction entries with
  | nil => rfl
  | cons e rest ih =>
    rw [List.map_cons, List.mem_cons] at h
    push_neg at h
    rw [findEntry_cons, if_neg (fun hh => h.1 hh.symm)]
    exact ih h.2

theorem zipWith_snd {α β : Type} :
    ∀ (l1 : List α) (l2 : List β), l1.length = l2.length →
      List.zipWith (fun _ b => b) l1 l2 = l2
  | [], [], _ => rfl
  | [], _ :: _, h => by simp at h
  | _ :: _, [], h => by simp at h
  | a :: l1, b :: l2, h => by
    rw [List.zipWith_cons_cons, zipWith_snd l1 l2 (by simpa using h)]

theorem zipWith_replicate_right {α β γ : Type} (f : α → β → γ) (c : β) :
    ∀ l : List α,
      List.zipWith f l (List.replicate l.length c) = l.map (fun a => f a c)
  | [] => rfl
  | a :: l => by
    rw [List.length_cons, List.replicate_succ, List.zipWith_cons_cons,
      List.map_cons, zipWith_replicate_right f c l]

/-- Meaning of the weight-assignment fold of `extract_objective_weights`:
starting from `w`, iterating `w[outcomes.index(name)] = value(entry)` over
a list of entries with distinct metric names, each all present in a
duplicate-free outcome list, produces the vector whose coordinate for
outcome `m0` is `value(entry of m0)` when some entry declares `m0` and the
starting value otherwise. -/
theorem foldlM_set_spec {β : Type} (g : String × β → ℚ) (outs : List String)
    (hout : outs.Nodup) :
    ∀ (entries : List (String × β)) (w : List ℚ),
      w.length = outs.length →
      (entries.map Prod.fst).Nodup →
      (∀ e ∈ entries, e.1 ∈ outs) →
      entries.foldlM
          (fun w e => (listIndex outs e.1).map (fun i => w.set i (g e))) w
        = some (List.zipWith (fun m0 w0 =>
            match findEntry entries m0 with
            | some e => g e
            | none => w0) outs w) := by
  intro entries
  induction entries with
  | nil =>
    intro w hw _ _
    show some w = _
    rw [show (List.zipWith (fun m0 w0 =>
        match findEntry ([] : List (String × β)) m0 with
        | some e => g e
        | none => w0) outs w)
        = List.zipWith (fun _ b => b) outs w from rfl]
    rw [zipWith_snd outs w hw.symm]
  | cons e rest ih =>
    intro w hw hnd hall
    rw [List.map_cons, List.nodup_cons] at hnd
    obtain ⟨hk, hndr⟩ := hnd
    obtain ⟨i, hi⟩ := mem_listIndex (hall e (List.mem_cons_self _ _))
    rw [show (e :: rest).foldlM
        (fun w e => (listIndex outs e.1).map (fun i => w.set i (g e))) w
        = ((listIndex outs e.1).map (fun i => w.set i (g e))).bind
            (rest.foldlM
              (fun w e => (listIndex outs e.1).map (fun i => w.set i (g e))))
        from rfl]
    rw [hi]
    show rest.foldlM _ (w.set i (g e)) = _
    rw [ih (w.set i (g e)) (by rw [List.length_set]; exact hw) hndr
      (fun e2 he2 => hall e2 (List.mem_cons_of_mem _ he2))]
    congr 1
    apply List.ext_getElem
    · rw [List.length_zipWith, List.length_zipWith, List.length_set]
    · intro j hj1 hj2
      rw [List.getElem_zipWith, List.getElem_zipWith]
      have hjo : j < outs.length := by
        rw [List.length_zipWith] at hj1
        omega
      have hjw : j < w.length := by
        rw [List.length_zipWith, List.length_set] at hj1
        omega
      simp only [List.getElem_set, findEntry_cons]
      by_cases hm : e.1 = outs[j]
      · have hij : i = j :=
          listIndex_unique hout hi
            (by rw [List.getElem?_eq_some]; exact ⟨hjo, hm.symm⟩)
        rw [if_pos hm, findEntry_eq_none (hm ▸ hk), if_pos hij]
      · rw [if_neg hm]
        cases hfe : findEntry rest outs[j] with
        | some e2 => rfl
        | none =>
            have hij : ¬ i = j := by
              intro hij
              subst hij
              have := listIndex_getElem? outs e.1 i hi
              rw [List.getElem?_eq_some] at this
              exact hm this.2.symm
            rw [if_neg hij]

/-! ## mapM and fold bookkeeping lemmas -/

theorem mapM_some_spec {α γ : Type} (f : α → Option γ) :
    ∀ l : List α, (∀ a ∈ l, (f a).isSome) →
      ∃ r, l.mapM f = some r ∧ r.length = l.length ∧
        ∀ (i : Nat) (a : α), l[i]? = some a → r[i]? = f a := by
  intro l
  induction l with
  | nil =>
    intro _
    refine ⟨[], rfl, rfl, ?_⟩
    intro i a h
    simp at h
  | cons a l ih =>
    intro hall
    obtain ⟨b, hb⟩ := Option.isSome_iff_exists.mp
      (hall a (List.mem_cons_self _ _))
    obtain ⟨r, hr, hlen, hp⟩ :=
      ih (fun a2 ha2 => hall a2 (List.mem_cons_of_mem _ ha2))
    refine ⟨b :: r, ?_, by simp [hlen], ?_⟩
    · rw [List.mapM_cons, hb, hr]
      rfl
    · intro i a2 h
      cases i with
      | zero =>
          rw [List.getElem?_cons_zero] at h
          injection h with h
          subst h
          rw [List.getElem?_cons_zero, hb]
      | succ i0 =>
          rw [List.getElem?_cons_succ] at h
          rw [List.getElem?_cons_succ]
          exact hp i0 a2 h

theorem length_filterMap_eq_countP {α β : Type} (f : α → Option β) :
    ∀ l : List α,
      (l.filterMap f).length = l.countP (fun a => (f a).isSome)
  | [] => rfl
  | a :: l => by
    rw [List.filterMap_cons, List.countP_cons]
    cases h : f a with
    | none => simp [h, length_filterMap_eq_countP f l]
    | some b => simp [h, length_filterMap_eq_countP f l]

theorem pending_step_length {outs params : List String}
    {arr : List (List (List ℚ))} {mp : String × List ObservationFeatures}
    {arr2 : List (List (List ℚ))}
    (h : pending_step outs params arr mp = some arr2) :
    arr2.length = arr.length := by
  unfold pending_step at h
  by_cases hmem : mp.1 ∈ outs
  · rw [if_pos hmem] at h
    rcases Option.bind_eq_some.mp h with ⟨mat, _, h2⟩
    rcases Option.bind_eq_some.mp h2 with ⟨i, _, h3⟩
    injection h3 with h3
    rw [← h3, List.length_set]
  · rw [if_neg hmem] at h
    injection h with h
    rw [← h]

theorem pending_foldlM_length (outs params : List String) :
    ∀ (pos : List (String × List ObservationFeatures))
      (arr res : List (List (List ℚ))),
      pos.foldlM (pending_step outs params) arr = some res →
      res.length = arr.length
  | [], arr, res => by
    intro h
    injection h with h
    rw [← h]
  | mp :: pos, arr, res => by
    intro h
    rw [show (mp :: pos).foldlM (pending_step outs params) arr
        = (pending_step outs params arr mp).bind
            (fun arr2 => pos.foldlM (pending_step outs params) arr2)
        from rfl] at h
    rcases Option.bind_eq_some.mp h with ⟨arr2, hstep, hrest⟩
    rw [pending_foldlM_length outs params pos arr2 res hrest,
      pending_step_length hstep]

namespace UnitX

theorem transform_obs_singleton (bounds : List (String × (ℚ × ℚ)))
    (f : ObservationFeatures) :
    transform_observation_features bounds [f]
      = [transform_feature bounds f] := rfl

theorem untransform_obs_singleton (bounds : List (String × (ℚ × ℚ)))
    (f : ObservationFeatures) :
    untransform_observation_features bounds [f]
      = (untransform_feature bounds f).map (fun g => [g]) := by
  cases h : untransform_feature bounds f with
  | none => simp [untransform_observation_features, List.mapM, List.mapM.loop, h]
  | some g => simp [untransform_observation_features, List.mapM, List.mapM.loop, h]

end UnitX

/-! ## Claim theorems -/

/-- C1: for every linear constraint `sum(w_i * x_i) <= b` and every point
`x`, the constraint transformed by `UnitX.transform_search_space` (each
eligible coordinate's weight becomes `w_i * (u_i - l_i)`, the bound is
decremented by `w_i * l_i`, ineligible weights unchanged) is satisfied by
the normalized point exactly when the original constraint is satisfied by
the original point; and for a float parameter bounded [2,10] and an
integer parameter bounded [0,5], the constraint `1*float + 1*int <= 12`
becomes `8*float + 1*int <= 10`. -/
theorem C1_constraint_transform_equiv
    (bounds : List (String × (ℚ × ℚ))) (c : ParameterConstraint)
    (x : String → ℚ)
    (hb : ∀ p ∈ bounds, p.2.1 < p.2.2) :
    (constraintValue (UnitX.transform_constraint bounds c).constraint_dict
        (normalizePoint bounds x)
      ≤ (UnitX.transform_constraint bounds c).bound
     ↔ constraintValue c.constraint_dict x ≤ c.bound)
    ∧ (UnitX.transform_search_space (UnitX.unitx_bounds exampleSearchSpace)
        exampleSearchSpace).map SearchSpace.parameter_constraints
      = some [⟨[("float", 8), ("int", 1)], 10⟩] := by
  constructor
  · have hne : ∀ n l u, lookup bounds n = some (l, u) → l ≠ u := by
      intro n l u h
      exact ne_of_lt (hb (n, (l, u)) (lookup_mem h))
    show constraintValue (UnitX.transform_constraint_dict bounds
        c.constraint_dict) (normalizePoint bounds x)
      ≤ UnitX.transform_constraint_bound bounds c.constraint_dict c.bound
      ↔ _
    rw [transform_constraint_value bounds x hne c.constraint_dict]
    unfold UnitX.transform_constraint_bound
    constructor <;> intro h <;> linarith
  · simp [exampleSearchSpace, UnitX.unitx_bounds, UnitX.transform_search_space,
      UnitX.transform_parameter, UnitX.transform_constraint,
      UnitX.transform_constraint_dict, UnitX.transform_constraint_bound,
      Parameter.target_value, lookup, normalize_value, List.mapM,
      List.mapM.loop, List.filterMap]
    norm_num

/-- C1 witness: the equivalence instantiated at the spec's end-to-end
scenario, with the point float = 3, int = 2. -/
theorem C1_witness :
    (constraintValue
        (UnitX.transform_constraint [("float", (2, 10))]
          ⟨[("float", 1), ("int", 1)], 12⟩).constraint_dict
        (normalizePoint [("float", (2, 10))]
          (fun n => if n = "float" then 3 else 2))
      ≤ (UnitX.transform_constraint [("float", (2, 10))]
          ⟨[("float", 1), ("int", 1)], 12⟩).bound
     ↔ constraintValue
        (⟨[("float", 1), ("int", 1)], 12⟩ :
          ParameterConstraint).constraint_dict
        (fun n => if n = "float" then 3 else 2)
      ≤ (⟨[("float", 1), ("int", 1)], 12⟩ : ParameterConstraint).bound)
    ∧ (UnitX.transform_search_space (UnitX.unitx_bounds exampleSearchSpace)
        exampleSearchSpace).map SearchSpace.parameter_constraints
      = some [⟨[("float", 8), ("int", 1)], 10⟩] :=
  C1_constraint_transform_equiv [("float", (2, 10))]
    ⟨[("float", 1), ("int", 1)], 12⟩
    (fun n => if n = "float" then 3 else 2) (by norm_num)

/-- C2: for every eligible parameter (recorded in `self.bounds` with
`l < u`) and value `v` present in an observation feature, applying
`untransform_observation_features` after `transform_observation_features`
gives back exactly `v`; for parameters not in `self.bounds`, the transform
leaves the value untouched. -/
theorem C2_roundtrip (bounds : List (String × (ℚ × ℚ)))
    (f : ObservationFeatures)
    (hnd : (bounds.map Prod.fst).Nodup)
    (hb : ∀ p ∈ bounds, p.2.1 < p.2.2)
    (hall : ∀ p ∈ bounds, (lookup f.parameters p.1).isSome) :
    (∀ n l u v, lookup bounds n = some (l, u) →
      lookup f.parameters n = some v →
      ∃ f2, UnitX.untransform_observation_features bounds
          (UnitX.transform_observation_features bounds [f]) = some [f2]
        ∧ lookup f2.parameters n = some v)
    ∧ (∀ n, lookup bounds n = none →
        lookup (UnitX.transform_feature bounds f).parameters n
          = lookup f.parameters n) := by
  have htf_keys := UnitX.keys_transform_feature bounds f
  have hall2 : ∀ p ∈ bounds,
      (lookup (UnitX.transform_feature bounds f).parameters p.1).isSome := by
    intro p hp
    rw [lookup_isSome_iff, htf_keys, ← lookup_isSome_iff]
    exact hall p hp
  obtain ⟨f2, hu, hk2, hpt⟩ :=
    UnitX.untransform_feature_spec bounds hnd
      (UnitX.transform_feature bounds f) hall2
  constructor
  · intro n l u v hlu hv
    refine ⟨f2, ?_, ?_⟩
    · rw [UnitX.transform_obs_singleton, UnitX.untransform_obs_singleton, hu]
      rfl
    · have h1 : lookup (UnitX.transform_feature bounds f).parameters n
          = some (normalize_value v (l, u)) := by
        rw [UnitX.lookup_transform_feature bounds hnd f n, hlu, hv]
        rfl
      have hul : u - l ≠ 0 :=
        sub_ne_zero.mpr (ne_of_gt (hb (n, (l, u)) (lookup_mem hlu)))
      have hback : normalize_value v (l, u) * (u - l) + l = v := by
        unfold normalize_value
        field_simp
      rw [hpt n, hlu, h1]
      show some (normalize_value v (l, u) * (u - l) + l) = some v
      rw [hback]
  · intro n hnone
    rw [UnitX.lookup_transform_feature bounds hnd f n, hnone]

/-- C3 counterexample: a multi-objective metric declared with the explicit
weight `0.0` does not keep its provided weight — Python's `obj_weight or s`
treats `0.0` as falsy, so the extracted weight falls back to the ±1
convention (here `+1`) instead of the provided `0`. -/
theorem C3_counterexample :
    extract_objective_weights (Objective.multi [("a", some 0)] false) ["a"]
      = some [1]
    ∧ extract_objective_weights (Objective.multi [("a", some 0)] false) ["a"]
      ≠ some [0] := by
  have h : extract_objective_weights (Objective.multi [("a", some 0)] false)
      ["a"] = some [1] := by
    simp [extract_objective_weights, pyOr, listIndex, List.foldlM,
      Objective.minimize]
  refine ⟨h, ?_⟩
  rw [h]
  intro h2
  injection h2 with h2
  injection h2 with h2
  exact one_ne_zero h2

/-- C3 (amended): `extract_objective_weights` returns a vector of length
equal to the outcome list with weight 0 for outcomes not in the objective;
a single-metric objective gets `-1` if minimize else `+1`; a scalarized
objective gets each declared weight multiplied by the overall minimize
sign; a multi-objective metric keeps its own provided per-metric weight
when it is present and nonzero, and falls back to the ±1 convention for a
missing or zero weight (Python truthiness of `obj_weight or s`). -/
theorem C3_weights_amended (o : Objective) (outs : List String)
    (hout : outs.Nodup) (hm : o.metrics.Nodup)
    (hsub : ∀ m ∈ o.metrics, m ∈ outs) :
    extract_objective_weights o outs = some (outs.map (amendedWeight o)) := by
  cases o with
  | single m minim =>
      have hmem : m ∈ outs := hsub m (by simp [Objective.metrics])
      obtain ⟨i, hi⟩ := mem_listIndex hmem
      show (listIndex outs m).map
          (fun i => (List.replicate outs.length (0:ℚ)).set i
            (if minim then -1 else 1)) = _
      rw [hi]
      show some ((List.replicate outs.length (0:ℚ)).set i
          (if minim then -1 else 1)) = _
      congr 1
      apply List.ext_getElem
      · rw [List.length_set, List.length_replicate, List.length_map]
      · intro j hj1 hj2
        have hjo : j < outs.length := by
          rw [List.length_set, List.length_replicate] at hj1
          exact hj1
        rw [List.getElem_set, List.getElem_map, List.getElem_replicate]
        show (if i = j then (if minim then (-1:ℚ) else 1) else 0)
          = if outs[j] = m then (if minim then (-1:ℚ) else 1) else 0
        by_cases heq : outs[j] = m
        · have hij : i = j :=
            listIndex_unique hout hi (List.getElem?_eq_some.mpr ⟨hjo, heq⟩)
          rw [if_pos hij, if_pos heq]
        · have hij : ¬ i = j := by
            intro hij
            apply heq
            subst hij
            exact (List.getElem?_eq_some.mp
              (listIndex_getElem? outs m i hi)).2
          rw [if_neg hij, if_neg heq]
  | scalarized mws minim =>
      have hfold := foldlM_set_spec
        (fun e => e.2 * (if minim then (-1:ℚ) else 1)) outs hout mws
        (List.replicate outs.length 0) (List.length_replicate _ _) hm
        (fun e he => hsub e.1 (List.mem_map_of_mem Prod.fst he))
      refine hfold.trans ?_
      congr 1
      rw [zipWith_replicate_right]
      apply List.map_congr_left
      intro a _
      cases hfe : findEntry mws a <;> simp [amendedWeight, hfe, Objective.minimize]
  | multi mws minim =>
      have hfold := foldlM_set_spec
        (fun e => pyOr e.2 (if minim then (-1:ℚ) else 1)) outs hout mws
        (List.replicate outs.length 0) (List.length_replicate _ _) hm
        (fun e he => hsub e.1 (List.mem_map_of_mem Prod.fst he))
      refine hfold.trans ?_
      congr 1
      rw [zipWith_replicate_right]
      apply List.map_congr_left
      intro a _
      cases hfe : findEntry mws a <;> simp [amendedWeight, hfe, Objective.minimize]

/-- C3 witness: a multi-objective with a zero weight on "a" and weight 2 on
"b", over outcomes ["a","b","c"], yields weights [1, 2, 0]. -/
theorem C3_witness :
    extract_objective_weights
        (Objective.multi [("a", some 0), ("b", some 2)] false) ["a","b","c"]
      = some [1, 2, 0] :=
  (C3_weights_amended (Objective.multi [("a", some 0), ("b", some 2)] false)
    ["a","b","c"] (by decide) (by decide) (by decide)).trans
    (by simp [amendedWeight, pyOr, findEntry, Objective.minimize])

/-- C2 witness: round trip of the value 4 of the float parameter bounded
[2,10], in a feature that also carries an untouched ineligible value. -/
theorem C2_witness :
    ∃ f2, UnitX.untransform_observation_features [("float", (2, 10))]
        (UnitX.transform_observation_features [("float", (2, 10))]
          [⟨[("float", 4), ("int", 3)]⟩]) = some [f2]
      ∧ lookup f2.parameters "float" = some 4 :=
  (C2_roundtrip [("float", (2, 10))] ⟨[("float", 4), ("int", 3)]⟩
    (by decide) (by norm_num) (by decide)).1
    "float" 2 10 4 rfl rfl

/-- C4 counterexample: with empty training data, the observed variants do
not raise — `observed_pareto_frontier` and `observed_hypervolume` contain
no emptiness check and simply delegate, returning whatever the downstream
computation returns. -/
theorem C4_counterexample :
    observed_pareto_frontier (fun d => d) [] = some []
    ∧ observed_hypervolume (fun _ => (0:ℚ)) [] = some 0
    ∧ observed_pareto_frontier (fun d => d) [] ≠ none
    ∧ observed_hypervolume (fun _ => (0:ℚ)) [] ≠ none := by
  refine ⟨rfl, rfl, ?_, ?_⟩ <;>
    simp [observed_pareto_frontier, observed_hypervolume]

/-- C4 (amended): only the predicted variants validate their data source —
`predicted_pareto_frontier` and `predicted_hypervolume` raise when no
observation features are supplied and the model's training data is empty —
while the observed variants perform no emptiness check and pass the
(possibly empty) training data straight through. -/
theorem C4_amended :
    ∀ (pf : List ObservationFeatures → List ObservationData)
      (hv : List ObservationFeatures → ℚ)
      (pfd : List ObservationData → List ObservationData)
      (hvd : List ObservationData → ℚ)
      (td : List ObservationData),
      predicted_pareto_frontier pf none [] = none
      ∧ predicted_hypervolume hv none [] = none
      ∧ observed_pareto_frontier pfd td = some (pfd td)
      ∧ observed_hypervolume hvd td = some (hvd td) :=
  fun _ _ _ _ _ => ⟨rfl, rfl, rfl, rfl⟩

/-- C5: evaluation of the code at the failing input — a search space whose
only parameter is an ineligible integer range parameter carrying a declared
target value.  `UnitX.transform_search_space` looks up
`self.bounds[p_name]` for the target-value remap even though the parameter
was never put into `self.bounds`, so the call raises `KeyError` (`none`)
instead of leaving the parameter untouched. -/
theorem C5_ineligible_target_raises :
    UnitX.transform_search_space
        (UnitX.unitx_bounds exampleFidelitySearchSpace)
        exampleFidelitySearchSpace = none := rfl

/-- C6: `extract_objective_thresholds` returns exactly the threshold values
whose metric name appears in the outcome list, in outcome-list order: for
thresholds on metrics {"a","c"} and outcomes ["a","b","c"] it returns
`[value(a), value(c)]` of length 2 (no gap for "b"), and in general the
result length is the number of outcomes carrying a threshold, unknown
metrics being silently dropped by the total function. -/
theorem C6_threshold_extraction :
    (∀ va vc : ℚ,
      extract_objective_thresholds [("a", va), ("c", vc)] ["a","b","c"]
        = [va, vc])
    ∧ ∀ (ts : List (String × ℚ)) (outs : List String),
        (extract_objective_thresholds ts outs).length
          = outs.countP (fun n => decide (n ∈ ts.map Prod.fst)) := by
  constructor
  · intro va vc
    rfl
  · intro ts outs
    unfold extract_objective_thresholds
    rw [length_filterMap_eq_countP]
    apply List.countP_congr
    intro n _
    rw [lookup_isSome_iff, List.map_reverse, List.mem_reverse,
      decide_eq_true_eq]

/-- C7: `extract_outcome_constraints` encodes each outcome constraint as a
row in `<=` form — with `s = 1` for a `<=`-constraint and `s = -1` for a
`>=`-constraint, row `i` is zero except `A[i, j] = s` at the metric's
outcome index `j`, `b[i] = s * bound`, and the encoded row
`s * x <= s * bound` is equivalent to the original comparison. -/
theorem C7_outcome_constraint_rows (ocs : List OutcomeConstraint)
    (outs : List String) (h0 : ocs ≠ [])
    (hall : ∀ c ∈ ocs, c.metric ∈ outs) :
    ∃ A b, extract_outcome_constraints ocs outs = some (some (A, b))
      ∧ A.length = ocs.length ∧ b.length = ocs.length
      ∧ ∀ (i : Nat) (c : OutcomeConstraint), ocs[i]? = some c →
          ∃ j, listIndex outs c.metric = some j
            ∧ A[i]? = some ((List.replicate outs.length (0:ℚ)).set j
                (if c.op = ComparisonOp.LEQ then 1 else -1))
            ∧ b[i]? = some
                ((if c.op = ComparisonOp.LEQ then (1:ℚ) else -1) * c.bound)
            ∧ ∀ x : ℚ,
                ((if c.op = ComparisonOp.LEQ then (1:ℚ) else -1) * x
                  ≤ (if c.op = ComparisonOp.LEQ then (1:ℚ) else -1) * c.bound
                 ↔ match c.op with
                   | ComparisonOp.LEQ => x ≤ c.bound
                   | ComparisonOp.GEQ => c.bound ≤ x) := by
  have hsome : ∀ c ∈ ocs, (outcome_constraint_row outs c).isSome := by
    intro c hc
    unfold outcome_constraint_row
    obtain ⟨j, hj⟩ := mem_listIndex (hall c hc)
    rw [hj]
    rfl
  obtain ⟨rows, hrows, hlen, hp⟩ :=
    mapM_some_spec (outcome_constraint_row outs) ocs hsome
  refine ⟨rows.map Prod.fst, rows.map Prod.snd, ?_,
    by rw [List.length_map, hlen], by rw [List.length_map, hlen], ?_⟩
  · unfold extract_outcome_constraints
    rw [if_pos (by simpa using List.length_pos.mpr h0), hrows]
  · intro i c hic
    have hcmem : c ∈ ocs := by
      obtain ⟨hlt, hev⟩ := List.getElem?_eq_some.mp hic
      exact hev ▸ List.getElem_mem hlt
    obtain ⟨j, hj⟩ := mem_listIndex (hall c hcmem)
    have hrow : outcome_constraint_row outs c
        = some ((List.replicate outs.length (0:ℚ)).set j
              (if c.op = ComparisonOp.LEQ then 1 else -1),
            (if c.op = ComparisonOp.LEQ then (1:ℚ) else -1) * c.bound) := by
      unfold outcome_constraint_row
      rw [hj]
      rfl
    refine ⟨j, hj, ?_, ?_, ?_⟩
    · rw [List.getElem?_map, hp i c hic, hrow]
      rfl
    · rw [List.getElem?_map, hp i c hic, hrow]
      rfl
    · intro x
      cases c.op with
      | LEQ => simp
      | GEQ =>
          have hne : ¬ (ComparisonOp.GEQ = ComparisonOp.LEQ) := by
            intro hh
            cases hh
          simp only [if_neg hne, neg_mul, one_mul, neg_le_neg_iff]

/-- C7 witness: a `>=`-constraint `m >= 5` over outcomes ["m","n"] encodes
to the negated row with `A[0,0] = -1` and `b[0] = -5`. -/
theorem C7_witness :
    ∃ A b, extract_outcome_constraints [⟨"m", ComparisonOp.GEQ, 5⟩]
        ["m","n"] = some (some (A, b))
      ∧ A.length = 1 ∧ b.length = 1
      ∧ ∀ (i : Nat) (c : OutcomeConstraint),
          [(⟨"m", ComparisonOp.GEQ, 5⟩ : OutcomeConstraint)][i]? = some c →
          ∃ j, listIndex ["m","n"] c.metric = some j
            ∧ A[i]? = some ((List.replicate (["m","n"] : List String).length
                (0:ℚ)).set j (if c.op = ComparisonOp.LEQ then 1 else -1))
            ∧ b[i]? = some
                ((if c.op = ComparisonOp.LEQ then (1:ℚ) else -1) * c.bound)
            ∧ ∀ x : ℚ,
                ((if c.op = ComparisonOp.LEQ then (1:ℚ) else -1) * x
                  ≤ (if c.op = ComparisonOp.LEQ then (1:ℚ) else -1) * c.bound
                 ↔ match c.op with
                   | ComparisonOp.LEQ => x ≤ c.bound
                   | ComparisonOp.GEQ => c.bound ≤ x) :=
  C7_outcome_constraint_rows [⟨"m", ComparisonOp.GEQ, 5⟩] ["m","n"]
    (by decide) (by decide)

/-- C8: when the pareto_frontier step yields an empty observation-data
list, `hypervolume` returns exactly 0, whatever the optimization
configuration (even an absent one), threshold override, outcome list, or
downstream hypervolume computation. -/
theorem C8_empty_frontier_hypervolume :
    ∀ (cfg : Option MultiObjectiveOptimizationConfig)
      (ts : Option (List (String × ℚ))) (outs : List String)
      (hvc : List ℚ → List ℚ → List (List ℚ) → ℚ),
      hypervolume [] cfg ts outs hvc = some 0 :=
  fun _ _ _ _ => rfl

/-- C9: `pending_observations_as_array` returns `None` for an empty pending
mapping; on the concrete input with pending features only for metric "y"
(plus a metric "z" not among the outcomes, which is skipped), with outcomes
["x","y"] and parameters ["p1","p2"], it returns the 2-element list whose
index 0 is an empty array and whose index 1 is the 2×2 matrix of "y"'s
pending values in parameter order; and in general a successful result has
exactly one entry per outcome name. -/
theorem C9_pending_observations :
    (∀ (outs params : List String),
      pending_observations_as_array [] outs params = some none)
    ∧ pending_observations_as_array
        [("y", [⟨[("p1", 3), ("p2", 4)]⟩, ⟨[("p1", 5), ("p2", 6)]⟩]),
         ("z", [⟨[("p1", 9), ("p2", 9)]⟩])]
        ["x", "y"] ["p1", "p2"]
        = some (some [[], [[3, 4], [5, 6]]])
    ∧ ∀ (pos : List (String × List ObservationFeatures))
        (outs params : List String) (l : List (List (List ℚ))),
        pending_observations_as_array pos outs params = some (some l) →
        l.length = outs.length := by
  refine ⟨fun outs params => rfl, rfl, ?_⟩
  intro pos outs params l h
  unfold pending_observations_as_array at h
  by_cases h0 : pos.length = 0
  · rw [if_pos h0] at h
    injection h with h
    exact absurd h (by simp)
  · rw [if_neg h0] at h
    rcases Option.bind_eq_some.mp h with ⟨res, hres, h2⟩
    injection h2 with h2
    injection h2 with h2
    rw [← h2, pending_foldlM_length outs params pos _ res hres,
      List.length_map]

/-- C9 witness: the general length law applied to the concrete successful
input — the result has one entry per outcome name. -/
theorem C9_witness :
    pending_observations_as_array
        [("y", [⟨[("p1", 3), ("p2", 4)]⟩, ⟨[("p1", 5), ("p2", 6)]⟩]),
         ("z", [⟨[("p1", 9), ("p2", 9)]⟩])]
        ["x", "y"] ["p1", "p2"]
      = some (some [[], [[3, 4], [5, 6]]])
    ∧ ([[], [[3, 4], [5, 6]]] : List (List (List ℚ))).length
      = (["x", "y"] : List String).length :=
  ⟨rfl,
    C9_pending_observations.2.2
      [("y", [⟨[("p1", 3), ("p2", 4)]⟩, ⟨[("p1", 5), ("p2", 6)]⟩]),
       ("z", [⟨[("p1", 9), ("p2", 9)]⟩])]
      ["x", "y"] ["p1", "p2"] [[], [[3, 4], [5, 6]]] rfl⟩

/-- C10: asymmetry of the UnitX observation-feature interface — for an
observation feature missing a parameter of `self.bounds`,
`transform_observation_features` succeeds (the parameter is skipped and
stays absent) while `untransform_observation_features` raises a `KeyError`
(`none`). -/
theorem C10_transform_untransform_asymmetry
    (bounds : List (String × (ℚ × ℚ))) (f : ObservationFeatures)
    (n : String) (lu : ℚ × ℚ) (hmem : (n, lu) ∈ bounds)
    (hmiss : lookup f.parameters n = none) :
    UnitX.transform_observation_features bounds [f]
      = [UnitX.transform_feature bounds f]
    ∧ lookup (UnitX.transform_feature bounds f).parameters n = none
    ∧ UnitX.untransform_observation_features bounds [f] = none := by
  refine ⟨rfl, ?_, ?_⟩
  · rw [lookup_eq_none_iff, UnitX.keys_transform_feature,
      ← lookup_eq_none_iff]
    exact hmiss
  · rw [UnitX.untransform_obs_singleton,
      UnitX.untransform_feature_none bounds n lu f hmem hmiss]
    rfl

/-- C10 witness: the eligible parameter "x" is in `self.bounds` but absent
from the feature, which only carries "y" — transform passes the feature
through, untransform raises. -/
theorem C10_witness :
    UnitX.transform_observation_features [("x", (0, 1))] [⟨[("y", 5)]⟩]
      = [UnitX.transform_feature [("x", (0, 1))] ⟨[("y", 5)]⟩]
    ∧ lookup (UnitX.transform_feature [("x", (0, 1))]
        ⟨[("y", 5)]⟩).parameters "x" = none
    ∧ UnitX.untransform_observation_features [("x", (0, 1))] [⟨[("y", 5)]⟩]
      = none :=
  C10_transform_untransform_asymmetry [("x", (0, 1))] ⟨[("y", 5)]⟩
    "x" (0, 1) (by decide) rfl

end Ax
